import Mathlib

/-!
Shallow embedding of the sorted, fixed-capacity tag-set core of
`tensor4all-core` (`src/crates/tensor4all-core/src/tagset.rs`).

Rust text (`&str`) is modelled as `List Char` — its sequence of Unicode
scalar values, which is exactly what `str::chars()` iterates.  The element
type `SmallString<N>` lives in `smallstring.rs`, which is not among the
provided sources (only its tests and its caller `tagset.rs` are), so it is
modelled from the specification's `BoundedText<N>` description.  All
operations of `tagset.rs` are transcribed function by function; mutating
Rust methods become functions returning the post-state, so that failure
paths carry the (unchanged) receiver explicitly.
-/

deriving instance DecidableEq for Except

/-- Modelled from the spec: the error type of `SmallString` / `BoundedText`
(`smallstring.rs` is missing from the sources).  The spec's §7 names a single
variant `TooLong {actual, max}` for a candidate tag whose character count
exceeds the per-element bound. -/
inductive SmallStringError where
  | TooLong (actual max : Nat) : SmallStringError
deriving DecidableEq

/-- Modelled from the spec: `BoundedText<N>` (`SmallString<N>` in the code,
`smallstring.rs` missing from the sources): a text value of at most `N`
characters.  Only the logical content is observable (§3: "backing content up
to logical length"; elements beyond are never observable), so the model
carries the character sequence itself; the length bound is enforced by the
constructor `SmallString.from_str` and tracked as the predicate
`SmallString.Wf`. -/
structure SmallString (N : Nat) where
  chars : List Char
deriving DecidableEq

/-- Modelled from the spec: the §3 invariant of `BoundedText<N>` — logical
length at most `N`. -/
def SmallString.Wf {N : Nat} (s : SmallString N) : Prop :=
  s.chars.length ≤ N

instance {N : Nat} (s : SmallString N) : Decidable s.Wf :=
  inferInstanceAs (Decidable (_ ≤ _))

instance {N : Nat} : Inhabited (SmallString N) :=
  ⟨⟨[]⟩⟩

/-- Modelled from the spec: §3 order of `BoundedText` — "total order equal to
standard lexicographic comparison over the Unicode scalar sequence (shorter
string that is a proper prefix of a longer one sorts first)", i.e. the
lexicographic order on `List Char`, transported along the (injective) field
projection `chars`. -/
instance {N : Nat} : LinearOrder (SmallString N) :=
  LinearOrder.lift' SmallString.chars fun a b h => by
    cases a
    cases b
    simpa using h

/-- Modelled from the spec: `construct(text)` of §4.1 — "succeeds producing a
value whose logical length equals the character count of `text`, or fails
with TooLong{actual, max=N} if that character count exceeds `N`.  No
truncation, no silent clipping." -/
def SmallString.from_str (N : Nat) (t : List Char) : Except SmallStringError (SmallString N) :=
  if N < t.length then Except.error (SmallStringError.TooLong t.length N)
  else Except.ok ⟨t⟩

/-- Modelled from the spec: `construct_empty()` (`SmallString::new`). -/
def SmallString.new (N : Nat) : SmallString N :=
  ⟨[]⟩

/-- Modelled from the spec: `length()` — character count. -/
def SmallString.len {N : Nat} (s : SmallString N) : Nat :=
  s.chars.length

/-- Modelled from the spec: `is_empty()`. -/
def SmallString.is_empty {N : Nat} (s : SmallString N) : Bool :=
  s.chars.isEmpty

/-- `tagset.rs`: error type for TagSet operations. -/
inductive TagSetError where
  | TooManyTags (actual max : Nat) : TagSetError
  | TagTooLong (actual max : Nat) : TagSetError
  | InvalidTag (e : SmallStringError) : TagSetError
deriving DecidableEq

/-- Rust `slice::binary_search` as called by `tagset.rs` on
`&self.tags[..self.length]`: the standard-library loop keeps bounds
`left ≤ right`, probes `mid = left + (right - left) / 2`, narrows to
`[mid+1, right)` when the probe is less than the key, to `[left, mid)` when
it is greater, and returns `Ok(mid)` on an exact hit; when the interval
empties it returns `Err(left)`, the insertion point.  The loop is embedded
with an explicit iteration budget `fuel` (each iteration strictly shrinks
`right - left`, so any `fuel ≥ right - left` computes the loop's result:
`binarySearchAux_fuel`); `Sum.inl` is `Ok`, `Sum.inr` is `Err`. -/
def binarySearchAux {α : Type} [LinearOrder α] [Inhabited α]
    (xs : List α) (key : α) : Nat → Nat → Nat → Nat ⊕ Nat
  | 0, left, _ => Sum.inr left
  | fuel + 1, left, right =>
    if left < right then
      let mid := left + (right - left) / 2
      let x := xs.getD mid default
      if x < key then binarySearchAux xs key fuel (mid + 1) right
      else if key < x then binarySearchAux xs key fuel left mid
      else Sum.inl mid
    else Sum.inr left

/-- `slice::binary_search` over a whole (modelled) slice. -/
def binarySearch {α : Type} [LinearOrder α] [Inhabited α]
    (xs : List α) (key : α) : Nat ⊕ Nat :=
  binarySearchAux xs key xs.length 0 xs.length

/-- `tagset.rs`: `TagSet<MAX_TAGS, MAX_TAG_LEN>`.  The Rust struct stores a
fixed array `tags: [SmallString<MAX_TAG_LEN>; MAX_TAGS]` plus
`length: usize`; the slots at `[length, MAX_TAGS)` are never read by any
method, so the model carries the observable prefix `tags[..length]` as a
list (its length is the `length` field) and the capacity `MAX_TAGS` as a
type-level parameter. -/
structure TagSet (MAX_TAGS MAX_TAG_LEN : Nat) where
  tags : List (SmallString MAX_TAG_LEN)
deriving DecidableEq

/-- `TagSet::new`. -/
def TagSet.new {m n : Nat} : TagSet m n :=
  ⟨[]⟩

/-- `TagSet::len`. -/
def TagSet.len {m n : Nat} (s : TagSet m n) : Nat :=
  s.tags.length

/-- `TagSet::capacity`. -/
def TagSet.capacity {m n : Nat} (_s : TagSet m n) : Nat :=
  m

/-- `TagSet::get`. -/
def TagSet.get {m n : Nat} (s : TagSet m n) (index : Nat) : Option (SmallString n) :=
  s.tags.get? index

/-- `TagSet::_has_tag`: `self.tags[..self.length].binary_search(tag).is_ok()`. -/
def TagSet._has_tag {m n : Nat} (s : TagSet m n) (tag : SmallString n) : Bool :=
  (binarySearch s.tags tag).isLeft

/-- `TagSet::has_tag`: build the probe `SmallString` from the text, return
`false` on construction failure, else `_has_tag`. -/
def TagSet.has_tag {m n : Nat} (s : TagSet m n) (tag : List Char) : Bool :=
  match SmallString.from_str n tag with
  | Except.error _ => false
  | Except.ok k => s._has_tag k

/-- `TagSet::has_tags`: every tag of `tags` is present in `self`. -/
def TagSet.has_tags {m n : Nat} (s : TagSet m n) (tags : TagSet m n) : Bool :=
  tags.tags.all fun tag => s._has_tag tag

/-- `TagSet::_add_tag_ordered`.  Returns the error (if any) together with the
post-state of the receiver; every early-return path of the Rust method
leaves the receiver untouched, which the pair makes explicit. -/
def TagSet._add_tag_ordered {m n : Nat} (s : TagSet m n) (tag : SmallString n) :
    Option TagSetError × TagSet m n :=
  if s._has_tag tag then (none, s)
  else if m ≤ s.tags.length then
    (some (TagSetError.TooManyTags (s.tags.length + 1) m), s)
  else
    let pos := (binarySearch s.tags tag).elim id id
    (none, ⟨s.tags.insertIdx pos tag⟩)

/-- `TagSet::add_tag`: construct the element, wrapping a construction error
in `InvalidTag`, then `_add_tag_ordered`. -/
def TagSet.add_tag {m n : Nat} (s : TagSet m n) (tag : List Char) :
    Option TagSetError × TagSet m n :=
  match SmallString.from_str n tag with
  | Except.error e => (some (TagSetError.InvalidTag e), s)
  | Except.ok k => s._add_tag_ordered k

/-- `TagSet::remove_tag`: construct the probe (returning `false` on failure),
linearly scan for its position (`iter().position(|t| *t == tag_str)`), and
erase there, shifting the rest down. -/
def TagSet.remove_tag {m n : Nat} (s : TagSet m n) (tag : List Char) :
    Bool × TagSet m n :=
  match SmallString.from_str n tag with
  | Except.error _ => (false, s)
  | Except.ok k =>
    match s.tags.findIdx? (fun t => t == k) with
    | some pos => (true, ⟨s.tags.eraseIdx pos⟩)
    | none => (false, s)

/-- `TagSet::common_tags`: fold over `self`'s tags, inserting those present
in `other`; the Rust code discards `_add_tag_ordered`'s `Result` with
`.ok()`, and on an error the receiver is unchanged, so the fold keeps the
accumulator's post-state in every case. -/
def TagSet.common_tags {m n : Nat} (s other : TagSet m n) : TagSet m n :=
  s.tags.foldl
    (fun result tag =>
      if other._has_tag tag then (result._add_tag_ordered tag).2 else result)
    TagSet.new

/-- Whitespace removal applied by `TagSet::from_str` to each segment:
`current_tag.chars().filter(|c| !c.is_whitespace()).collect()`. -/
def stripWs (t : List Char) : List Char :=
  t.filter fun c => !c.isWhitespace

/-- The character loop of `TagSet::from_str`: walk the input, accumulating
`current` (the Rust `current_tag`); on a comma, strip whitespace from the
accumulated segment and add it unless empty, propagating any `add_tag`
error; at the end of input, process the final segment the same way. -/
def TagSet.fromStrGo {m n : Nat} (acc : TagSet m n) (current : List Char) :
    List Char → Except TagSetError (TagSet m n)
  | [] =>
    if current.isEmpty then Except.ok acc
    else if (stripWs current).isEmpty then Except.ok acc
    else
      match acc.add_tag (stripWs current) with
      | (some e, _) => Except.error e
      | (none, acc2) => Except.ok acc2
  | c :: rest =>
    if c = ',' then
      if current.isEmpty then TagSet.fromStrGo acc [] rest
      else if (stripWs current).isEmpty then TagSet.fromStrGo acc [] rest
      else
        match acc.add_tag (stripWs current) with
        | (some e, _) => Except.error e
        | (none, acc2) => TagSet.fromStrGo acc2 [] rest
    else TagSet.fromStrGo acc (current ++ [c]) rest

/-- `TagSet::from_str`: parse a comma-separated string starting from the
empty set. -/
def TagSet.from_str (m n : Nat) (s : List Char) : Except TagSetError (TagSet m n) :=
  TagSet.fromStrGo TagSet.new [] s

/-- Splitting a character sequence at every comma — the segment structure
that `from_str`'s loop traverses (spec §4.2: "splits `text` on the `,`
delimiter into segments"). -/
def splitCommas : List Char → List (List Char)
  | [] => [[]]
  | c :: rest =>
    if c = ',' then [] :: splitCommas rest
    else
      match splitCommas rest with
      | [] => [[c]]
      | s :: ss => (c :: s) :: ss

/-- Spec §4.2's description of `parse`'s segment handling: split on commas,
strip all whitespace from each segment, discard the segments that end up
empty. -/
def cleanSegments (s : List Char) : List (List Char) :=
  ((splitCommas s).map stripWs).filter fun seg => !seg.isEmpty

/-- Adding a list of candidate tag texts in order, stopping at the first
`add_tag` failure — the "performs add in declaration order, fails fast"
reference behaviour that `from_str` is proved to implement. -/
def TagSet.addAll {m n : Nat} (acc : TagSet m n) :
    List (List Char) → Except TagSetError (TagSet m n)
  | [] => Except.ok acc
  | t :: ts =>
    match acc.add_tag t with
    | (some e, _) => Except.error e
    | (none, acc2) => TagSet.addAll acc2 ts

/-- `common_tags` with the discarded `_add_tag_ordered` error propagated
instead — used to state that the capacity error can never actually occur
during intersection. -/
def commonChecked {m n : Nat} (b : TagSet m n) :
    List (SmallString n) → TagSet m n → Except TagSetError (TagSet m n)
  | [], acc => Except.ok acc
  | t :: ts, acc =>
    if b._has_tag t then
      match acc._add_tag_ordered t with
      | (some e, _) => Except.error e
      | (none, acc2) => commonChecked b ts acc2
    else commonChecked b ts acc

/-- `common_tags` variant that surfaces the internally discarded error. -/
def TagSet.common_tags_checked {m n : Nat} (s other : TagSet m n) :
    Except TagSetError (TagSet m n) :=
  commonChecked other s.tags TagSet.new

/-- Modelled from the spec: §6's canonical serialized form, "the post-sort,
comma-joined sequence of element texts" (no `to_text` exists in the provided
sources). -/
def joinCommas : List (List Char) → List Char
  | [] => []
  | [t] => t
  | t :: ts => t ++ ',' :: joinCommas ts

/-- Modelled from the spec: serialization of a tag set (§6) — its element
texts, in stored (sorted) order, joined by commas. -/
def TagSet.to_text {m n : Nat} (s : TagSet m n) : List Char :=
  joinCommas (s.tags.map SmallString.chars)

/-- The documented representation invariant of `TagSet` (spec §3): the live
prefix is strictly ascending under the element order (hence duplicate-free)
and its length is at most `MAX_TAGS`. -/
def TagSet.Valid {m n : Nat} (s : TagSet m n) : Prop :=
  s.tags.Pairwise (· < ·) ∧ s.tags.length ≤ m

instance {m n : Nat} (s : TagSet m n) : Decidable s.Valid :=
  inferInstanceAs (Decidable (_ ∧ _))

/-- Per-element boundedness of a tag set: every stored tag respects the
`MAX_TAG_LEN` character bound (the §3 invariant of the elements). -/
def TagSet.Bounded {m n : Nat} (s : TagSet m n) : Prop :=
  ∀ t ∈ s.tags, t.chars.length ≤ n

instance {m n : Nat} (s : TagSet m n) : Decidable s.Bounded :=
  inferInstanceAs (Decidable (∀ t ∈ s.tags, t.chars.length ≤ n))

/-- The tag sets reachable through the public constructors and mutators:
the empty set, a successful parse, and the post-state of any `add_tag` or
`remove_tag` call (successful or not). -/
inductive TagSet.Reachable (m n : Nat) : TagSet m n → Prop where
  | new : TagSet.Reachable m n TagSet.new
  | parse (t : List Char) (s : TagSet m n) :
      TagSet.from_str m n t = Except.ok s → TagSet.Reachable m n s
  | add (s : TagSet m n) (t : List Char) :
      TagSet.Reachable m n s → TagSet.Reachable m n (s.add_tag t).2
  | remove (s : TagSet m n) (t : List Char) :
      TagSet.Reachable m n s → TagSet.Reachable m n (s.remove_tag t).2

/-! ### Concrete texts and sets, used to settle the claims on explicit inputs -/

def exT1 : List Char := "t1".data

def exT2 : List Char := "t2".data

def exT3 : List Char := "t3".data

def exWs : List Char := " aaa , bb bb  , ccc ".data

def exT123cs : List Char := "t1,t2,t3".data

def exT321cs : List Char := "t3,t2,t1".data

def exUni : List Char := "αβγ".data

def exHW : List Char := "hello world".data

def sT1 : SmallString 16 := ⟨exT1⟩

def sT2 : SmallString 16 := ⟨exT2⟩

def sT3 : SmallString 16 := ⟨exT3⟩

def sT4 : SmallString 16 := ⟨"t4".data⟩

def sAaa : SmallString 16 := ⟨"aaa".data⟩

def sBbbb : SmallString 16 := ⟨"bbbb".data⟩

def sCcc : SmallString 16 := ⟨"ccc".data⟩

def exSet2 : TagSet 2 16 := ⟨[sT1, sT2]⟩

def exSet123 : TagSet 4 16 := ⟨[sT1, sT2, sT3]⟩

def exSet234 : TagSet 4 16 := ⟨[sT2, sT3, sT4]⟩

def exSet23 : TagSet 4 16 := ⟨[sT2, sT3]⟩

/-- A tag whose text contains a whitespace character: reachable through
`add_tag`, and the round-trip counterexample. -/
def exBad : TagSet 4 16 := ⟨[⟨" a".data⟩]⟩

/-! ### Binary search correctness on sorted lists -/

theorem binarySearchAux_zero {α : Type} [LinearOrder α] [Inhabited α]
    (xs : List α) (key : α) (left right : Nat) :
    binarySearchAux xs key 0 left right = Sum.inr left := rfl

theorem binarySearchAux_succ {α : Type} [LinearOrder α] [Inhabited α]
    (xs : List α) (key : α) (fuel left right : Nat) :
    binarySearchAux xs key (fuel + 1) left right =
      if left < right then
        if xs.getD (left + (right - left) / 2) default < key then
          binarySearchAux xs key fuel (left + (right - left) / 2 + 1) right
        else if key < xs.getD (left + (right - left) / 2) default then
          binarySearchAux xs key fuel left (left + (right - left) / 2)
        else Sum.inl (left + (right - left) / 2)
      else Sum.inr left := rfl

theorem sorted_getD_lt {α : Type} [LinearOrder α] [Inhabited α] {xs : List α}
    (hs : xs.Pairwise (· < ·)) {i j : Nat} (hij : i < j) (hj : j < xs.length) :
    xs.getD i default < xs.getD j default := by
  have hi : i < xs.length := lt_trans hij hj
  rw [List.getD_eq_getElem _ _ hi, List.getD_eq_getElem _ _ hj]
  exact List.pairwise_iff_getElem.1 hs i j hi hj hij

theorem binarySearchAux_spec {α : Type} [LinearOrder α] [Inhabited α]
    (xs : List α) (key : α) (hs : xs.Pairwise (· < ·)) :
    ∀ (fuel left right : Nat), right - left ≤ fuel → left ≤ right →
      right ≤ xs.length →
      (∀ i, i < left → i < xs.length → xs.getD i default < key) →
      (∀ i, right ≤ i → i < xs.length → key < xs.getD i default) →
      (match binarySearchAux xs key fuel left right with
       | Sum.inl i => i < xs.length ∧ xs.getD i default = key
       | Sum.inr j =>
           j ≤ xs.length ∧ (∀ i, i < j → i < xs.length → xs.getD i default < key) ∧
             (∀ i, j ≤ i → i < xs.length → key < xs.getD i default)) := by
  intro fuel
  induction fuel with
  | zero =>
    intro left right h1 h2 h3 h4 h5
    rw [binarySearchAux_zero]
    have heq : left = right := by omega
    exact ⟨by omega, fun i hi hil => h4 i hi hil,
      fun i hi hil => h5 i (by omega) hil⟩
  | succ fuel ih =>
    intro left right h1 h2 h3 h4 h5
    rw [binarySearchAux_succ]
    by_cases hlr : left < right
    · rw [if_pos hlr]
      have hmid1 : left ≤ left + (right - left) / 2 := by omega
      have hmid2 : left + (right - left) / 2 < right := by omega
      have hmidlen : left + (right - left) / 2 < xs.length := by omega
      by_cases hx : xs.getD (left + (right - left) / 2) default < key
      · rw [if_pos hx]
        apply ih
        · omega
        · omega
        · exact h3
        · intro i hi hil
          rcases Nat.lt_or_ge i (left + (right - left) / 2) with h | h
          · exact lt_trans (sorted_getD_lt hs h hmidlen) hx
          · have heq : i = left + (right - left) / 2 := by omega
            rw [heq]
            exact hx
        · exact h5
      · rw [if_neg hx]
        by_cases hy : key < xs.getD (left + (right - left) / 2) default
        · rw [if_pos hy]
          apply ih
          · omega
          · omega
          · omega
          · exact h4
          · intro i hi hil
            rcases Nat.lt_or_ge (left + (right - left) / 2) i with h | h
            · exact lt_trans hy (sorted_getD_lt hs h hil)
            · have heq : i = left + (right - left) / 2 := by omega
              rw [heq]
              exact hy
        · rw [if_neg hy]
          exact ⟨hmidlen, le_antisymm (not_lt.1 hy) (not_lt.1 hx)⟩
    · rw [if_neg hlr]
      have heq : left = right := by omega
      exact ⟨by omega, fun i hi hil => h4 i hi hil,
        fun i hi hil => h5 i (by omega) hil⟩

theorem binarySearch_spec {α : Type} [LinearOrder α] [Inhabited α]
    (xs : List α) (key : α) (hs : xs.Pairwise (· < ·)) :
    (match binarySearch xs key with
     | Sum.inl i => i < xs.length ∧ xs.getD i default = key
     | Sum.inr j =>
         j ≤ xs.length ∧ (∀ i, i < j → i < xs.length → xs.getD i default < key) ∧
           (∀ i, j ≤ i → i < xs.length → key < xs.getD i default)) := by
  exact binarySearchAux_spec xs key hs xs.length 0 xs.length (by omega) (by omega)
    le_rfl (fun i hi _ => absurd hi (Nat.not_lt_zero i)) (fun i hi hil => by omega)

theorem binarySearch_isLeft_iff_mem {α : Type} [LinearOrder α] [Inhabited α]
    {xs : List α} {key : α} (hs : xs.Pairwise (· < ·)) :
    (binarySearch xs key).isLeft = true ↔ key ∈ xs := by
  have hspec := binarySearch_spec xs key hs
  cases hres : binarySearch xs key with
  | inl i =>
    rw [hres] at hspec
    simp only [Sum.isLeft_inl, true_iff]
    obtain ⟨hlen, heq⟩ := hspec
    rw [List.getD_eq_getElem _ _ hlen] at heq
    rw [← heq]
    exact List.getElem_mem hlen
  | inr j =>
    rw [hres] at hspec
    obtain ⟨hjlen, hlt, hgt⟩ := hspec
    have hnot : key ∉ xs := by
      intro hmem
      obtain ⟨idx, hidx, heq⟩ := List.mem_iff_getElem.1 hmem
      rcases Nat.lt_or_ge idx j with h | h
      · have hx := hlt idx h hidx
        rw [List.getD_eq_getElem _ _ hidx, heq] at hx
        exact lt_irrefl key hx
      · have hx := hgt idx h hidx
        rw [List.getD_eq_getElem _ _ hidx, heq] at hx
        exact lt_irrefl key hx
    simp [hnot]

theorem binarySearch_inr {α : Type} [LinearOrder α] [Inhabited α]
    {xs : List α} {key : α} {j : Nat} (hs : xs.Pairwise (· < ·))
    (h : binarySearch xs key = Sum.inr j) :
    j ≤ xs.length ∧ (∀ i, i < j → i < xs.length → xs.getD i default < key) ∧
      (∀ i, j ≤ i → i < xs.length → key < xs.getD i default) := by
  have hspec := binarySearch_spec xs key hs
  rw [h] at hspec
  exact hspec

/-! ### Sorted insertion -/

theorem insertIdx_eq_take_cons_drop {α : Type} (xs : List α) (j : Nat) (a : α)
    (hj : j ≤ xs.length) :
    xs.insertIdx j a = xs.take j ++ a :: xs.drop j := by
  induction xs generalizing j with
  | nil =>
    have : j = 0 := by simpa using hj
    rw [this]
    rfl
  | cons c cs ih =>
    cases j with
    | zero => rfl
    | succ j =>
      rw [List.insertIdx_succ_cons, List.take_succ_cons, List.drop_succ_cons,
        List.cons_append, ih j (by simpa using hj)]

theorem mem_take_idx {α : Type} [Inhabited α] {xs : List α} {j : Nat} {a : α}
    (ha : a ∈ xs.take j) :
    ∃ i, i < j ∧ i < xs.length ∧ xs.getD i default = a := by
  obtain ⟨i, hi, heq⟩ := List.mem_iff_getElem.1 ha
  have hlen : i < j ∧ i < xs.length := by
    have := hi
    rw [List.length_take] at this
    omega
  refine ⟨i, hlen.1, hlen.2, ?_⟩
  rw [List.getD_eq_getElem _ _ hlen.2, ← List.getElem_take xs]
  · exact heq

theorem mem_drop_idx {α : Type} [Inhabited α] {xs : List α} {j : Nat} {a : α}
    (ha : a ∈ xs.drop j) :
    ∃ i, j ≤ i ∧ i < xs.length ∧ xs.getD i default = a := by
  obtain ⟨i, hi, heq⟩ := List.mem_iff_getElem.1 ha
  have hlen : j + i < xs.length := by
    have := hi
    rw [List.length_drop] at this
    omega
  refine ⟨j + i, by omega, hlen, ?_⟩
  rw [List.getD_eq_getElem _ _ hlen, ← List.getElem_drop xs]
  · exact heq

theorem pairwise_insertIdx {α : Type} [LinearOrder α] [Inhabited α]
    {xs : List α} {key : α} {j : Nat} (hs : xs.Pairwise (· < ·))
    (hj : j ≤ xs.length)
    (hlt : ∀ i, i < j → i < xs.length → xs.getD i default < key)
    (hgt : ∀ i, j ≤ i → i < xs.length → key < xs.getD i default) :
    (xs.insertIdx j key).Pairwise (· < ·) := by
  rw [insertIdx_eq_take_cons_drop xs j key hj, List.pairwise_append]
  refine ⟨List.Pairwise.sublist (List.take_sublist j xs) hs, ?_, ?_⟩
  · rw [List.pairwise_cons]
    refine ⟨?_, List.Pairwise.sublist (List.drop_sublist j xs) hs⟩
    intro b hb
    obtain ⟨i, hji, hil, heq⟩ := mem_drop_idx hb
    rw [← heq]
    exact hgt i hji hil
  · intro a ha b hb
    obtain ⟨i, hij, hil, heqa⟩ := mem_take_idx ha
    have hak : a < key := by
      rw [← heqa]
      exact hlt i hij hil
    rcases List.mem_cons.1 hb with hbk | hbd
    · rw [hbk]
      exact hak
    · obtain ⟨i2, hji2, hil2, heqb⟩ := mem_drop_idx hbd
      refine lt_trans hak ?_
      rw [← heqb]
      exact hgt i2 hji2 hil2

/-! ### Branch analysis of the TagSet operations -/

theorem _has_tag_iff {m n : Nat} {s : TagSet m n} {k : SmallString n}
    (hs : s.tags.Pairwise (· < ·)) : s._has_tag k = true ↔ k ∈ s.tags :=
  binarySearch_isLeft_iff_mem hs

theorem _has_tag_eq_false {m n : Nat} {s : TagSet m n} {k : SmallString n}
    (hs : s.tags.Pairwise (· < ·)) (h : k ∉ s.tags) : s._has_tag k = false := by
  cases hh : s._has_tag k
  · rfl
  · exact absurd ((_has_tag_iff hs).1 hh) h

theorem _add_tag_ordered_mem_case {m n : Nat} {s : TagSet m n} {k : SmallString n}
    (hs : s.tags.Pairwise (· < ·)) (h : k ∈ s.tags) :
    s._add_tag_ordered k = (none, s) := by
  unfold TagSet._add_tag_ordered
  rw [if_pos ((_has_tag_iff hs).2 h)]

theorem _add_tag_ordered_full_case {m n : Nat} {s : TagSet m n} {k : SmallString n}
    (hs : s.tags.Pairwise (· < ·)) (h : k ∉ s.tags) (hlen : m ≤ s.tags.length) :
    s._add_tag_ordered k =
      (some (TagSetError.TooManyTags (s.tags.length + 1) m), s) := by
  unfold TagSet._add_tag_ordered
  rw [if_neg (fun hc => h ((_has_tag_iff hs).1 hc)), if_pos hlen]

theorem _add_tag_ordered_insert_case {m n : Nat} {s : TagSet m n} {k : SmallString n}
    (hv : s.Valid) (h : k ∉ s.tags) (hlen : s.tags.length < m) :
    ∃ j, j ≤ s.tags.length ∧
      s._add_tag_ordered k = (none, ⟨s.tags.insertIdx j k⟩) ∧
      (⟨s.tags.insertIdx j k⟩ : TagSet m n).Valid ∧
      (s.tags.insertIdx j k).length = s.tags.length + 1 ∧
      (∀ t, t ∈ s.tags.insertIdx j k ↔ t = k ∨ t ∈ s.tags) ∧
      (∀ i, i < j → i < s.tags.length → s.tags.getD i default < k) ∧
      (∀ i, j ≤ i → i < s.tags.length → k < s.tags.getD i default) := by
  obtain ⟨hs, hm⟩ := hv
  cases hres : binarySearch s.tags k with
  | inl i =>
    have hleft : (binarySearch s.tags k).isLeft = true := by
      rw [hres]
      rfl
    exact absurd ((binarySearch_isLeft_iff_mem hs).1 hleft) h
  | inr j =>
    obtain ⟨hjlen, hjlt, hjgt⟩ := binarySearch_inr hs hres
    have hpair : (s.tags.insertIdx j k).Pairwise (· < ·) :=
      pairwise_insertIdx hs hjlen hjlt hjgt
    refine ⟨j, hjlen, ?_, ⟨hpair, ?_⟩, ?_,
      fun t => List.mem_insertIdx hjlen, hjlt, hjgt⟩
    · unfold TagSet._add_tag_ordered
      rw [if_neg (fun hc => h ((_has_tag_iff hs).1 hc)), if_neg (by omega)]
      rw [hres]
      rfl
    · rw [List.length_insertIdx j s.tags hjlen]
      omega
    · exact List.length_insertIdx j s.tags hjlen

theorem _add_tag_ordered_valid {m n : Nat} {s : TagSet m n} {k : SmallString n}
    (hv : s.Valid) : ((s._add_tag_ordered k).2).Valid := by
  by_cases hmem : k ∈ s.tags
  · rw [_add_tag_ordered_mem_case hv.1 hmem]
    exact hv
  · by_cases hlen : m ≤ s.tags.length
    · rw [_add_tag_ordered_full_case hv.1 hmem hlen]
      exact hv
    · obtain ⟨j, _, heq, hval, _, _, _, _⟩ :=
        _add_tag_ordered_insert_case hv hmem (by omega)
      rw [heq]
      exact hval

theorem add_tag_valid {m n : Nat} {s : TagSet m n} {t : List Char}
    (hv : s.Valid) : ((s.add_tag t).2).Valid := by
  unfold TagSet.add_tag
  cases SmallString.from_str n t with
  | error e => exact hv
  | ok k => exact _add_tag_ordered_valid hv

theorem remove_tag_valid {m n : Nat} {s : TagSet m n} {t : List Char}
    (hv : s.Valid) : ((s.remove_tag t).2).Valid := by
  unfold TagSet.remove_tag
  split
  · exact hv
  · split
    · exact ⟨List.Pairwise.sublist (List.eraseIdx_sublist _ _) hv.1,
        le_trans (List.Sublist.length_le (List.eraseIdx_sublist _ _)) hv.2⟩
    · exact hv

theorem new_valid {m n : Nat} : (TagSet.new (m := m) (n := n)).Valid :=
  ⟨List.Pairwise.nil, Nat.zero_le m⟩

theorem fromStrGo_ok_valid {m n : Nat} :
    ∀ (l : List Char) (acc : TagSet m n) (cur : List Char) (ts : TagSet m n),
      acc.Valid → TagSet.fromStrGo acc cur l = Except.ok ts → ts.Valid := by
  intro l
  induction l with
  | nil =>
    intro acc cur ts hv h
    unfold TagSet.fromStrGo at h
    split at h
    · cases h
      exact hv
    · split at h
      · cases h
        exact hv
      · split at h
        · cases h
        · rename_i acc2 heq
          cases h
          have hval := add_tag_valid (t := stripWs cur) hv
          rw [heq] at hval
          exact hval
  | cons c rest ih =>
    intro acc cur ts hv h
    unfold TagSet.fromStrGo at h
    split at h
    · split at h
      · exact ih acc [] ts hv h
      · split at h
        · exact ih acc [] ts hv h
        · split at h
          · cases h
          · rename_i acc2 heq
            have hval := add_tag_valid (t := stripWs cur) hv
            rw [heq] at hval
            exact ih acc2 [] ts hval h
    · exact ih acc (cur ++ [c]) ts hv h

theorem from_str_ok_valid {m n : Nat} {t : List Char} {ts : TagSet m n}
    (h : TagSet.from_str m n t = Except.ok ts) : ts.Valid :=
  fromStrGo_ok_valid t TagSet.new [] ts new_valid h

/-! ### `from_str` performs split-on-comma, strip-whitespace, drop-empty, add-each -/

theorem splitCommas_ne_nil (l : List Char) : splitCommas l ≠ [] := by
  cases l with
  | nil => simp [splitCommas]
  | cons c rest =>
    unfold splitCommas
    by_cases hc : c = ','
    · simp [hc]
    · rw [if_neg hc]
      cases splitCommas rest <;> simp

theorem splitCommas_cons_not_comma (c : Char) (rest : List Char) (hc : ¬c = ',') :
    splitCommas (c :: rest) =
      match splitCommas rest with
      | [] => [[c]]
      | s :: ss => (c :: s) :: ss := by
  conv_lhs => rw [splitCommas]
  rw [if_neg hc]

theorem splitCommas_append (a rest : List Char) (ha : ',' ∉ a) :
    splitCommas (a ++ rest) =
      match splitCommas rest with
      | [] => [a]
      | s :: ss => (a ++ s) :: ss := by
  induction a with
  | nil =>
    cases h : splitCommas rest with
    | nil => exact absurd h (splitCommas_ne_nil rest)
    | cons s ss => simp [h]
  | cons c a2 ih =>
    have hc : ¬c = ',' := fun h => ha (h ▸ List.mem_cons_self c a2)
    have ha2 : ',' ∉ a2 := fun h => ha (List.mem_cons_of_mem c h)
    rw [List.cons_append, splitCommas_cons_not_comma c (a2 ++ rest) hc, ih ha2]
    cases h : splitCommas rest with
    | nil => exact absurd h (splitCommas_ne_nil rest)
    | cons s ss => simp

theorem splitCommas_no_comma (a : List Char) (ha : ',' ∉ a) :
    splitCommas a = [a] := by
  have h := splitCommas_append a [] ha
  rw [List.append_nil] at h
  rw [h]
  simp [splitCommas]

theorem splitCommas_comma_cons (rest : List Char) :
    splitCommas (',' :: rest) = [] :: splitCommas rest := by
  simp [splitCommas]

theorem addAll_nil {m n : Nat} (acc : TagSet m n) :
    TagSet.addAll acc [] = Except.ok acc := rfl

theorem addAll_cons {m n : Nat} (acc : TagSet m n) (t : List Char) (ts : List (List Char)) :
    TagSet.addAll acc (t :: ts) =
      match acc.add_tag t with
      | (some e, _) => Except.error e
      | (none, acc2) => TagSet.addAll acc2 ts := rfl

theorem stripWs_nil : stripWs [] = [] := rfl

theorem fromStrGo_eq_addAll {m n : Nat} :
    ∀ (l : List Char) (acc : TagSet m n) (cur : List Char), ',' ∉ cur →
      TagSet.fromStrGo acc cur l = TagSet.addAll acc (cleanSegments (cur ++ l)) := by
  intro l
  induction l with
  | nil =>
    intro acc cur hcur
    rw [List.append_nil]
    unfold cleanSegments
    rw [splitCommas_no_comma cur hcur]
    unfold TagSet.fromStrGo
    by_cases h1 : cur.isEmpty
    · rw [if_pos h1]
      have hc0 : cur = [] := by
        cases cur
        · rfl
        · simp [List.isEmpty] at h1
      subst hc0
      simp [stripWs, addAll_nil]
    · rw [if_neg h1]
      by_cases h2 : (stripWs cur).isEmpty
      · rw [if_pos h2]
        simp only [List.map_cons, List.map_nil, List.filter_cons, h2]
        simp [addAll_nil]
      · rw [if_neg h2]
        simp only [List.map_cons, List.map_nil, List.filter_cons, h2]
        simp only [Bool.not_false, if_pos, List.filter_nil]
        rw [addAll_cons]
        rcases hadd : acc.add_tag (stripWs cur) with ⟨e, acc2⟩
        cases e with
        | none => simp [addAll_nil]
        | some err => simp
  | cons c rest ih =>
    intro acc cur hcur
    unfold TagSet.fromStrGo
    by_cases hc : c = ','
    · rw [if_pos hc]
      subst hc
      have hsplit : splitCommas (cur ++ ',' :: rest) = cur :: splitCommas rest := by
        rw [splitCommas_append cur (',' :: rest) hcur, splitCommas_comma_cons]
        simp
      unfold cleanSegments
      rw [hsplit]
      simp only [List.map_cons, List.filter_cons]
      by_cases h1 : cur.isEmpty
      · rw [if_pos h1]
        have hc0 : cur = [] := by
          cases cur
          · rfl
          · simp [List.isEmpty] at h1
        subst hc0
        rw [stripWs_nil]
        simp only [List.isEmpty_nil, Bool.not_true, Bool.false_eq_true, if_false]
        exact ih acc [] (by simp)
      · rw [if_neg h1]
        by_cases h2 : (stripWs cur).isEmpty
        · rw [if_pos h2]
          simp only [h2, Bool.not_true, Bool.false_eq_true, if_false]
          exact ih acc [] (by simp)
        · rw [if_neg h2]
          simp only [h2, Bool.not_false, if_pos]
          rw [addAll_cons]
          rcases hadd : acc.add_tag (stripWs cur) with ⟨e, acc2⟩
          cases e with
          | none =>
            simp only []
            exact ih acc2 [] (by simp)
          | some err => simp
    · rw [if_neg hc]
      have hcur2 : ',' ∉ cur ++ [c] := by
        intro hmem
        rcases List.mem_append.1 hmem with h | h
        · exact hcur h
        · simp at h
          exact hc h.symm
      rw [ih acc (cur ++ [c]) hcur2, List.append_assoc]
      rfl

/-- `from_str` is exactly: split on commas, strip all whitespace from each
segment, drop the segments that became empty, and add the survivors in
order, failing fast. -/
theorem from_str_eq_addAll (m n : Nat) (s : List Char) :
    TagSet.from_str m n s = TagSet.addAll TagSet.new (cleanSegments s) :=
  fromStrGo_eq_addAll s TagSet.new [] (by simp)

/-! ### `remove_tag`: the position scan erases the (unique) occurrence -/

theorem pairwise_lt_nodup {α : Type} [LinearOrder α] {l : List α}
    (h : l.Pairwise (· < ·)) : l.Nodup :=
  h.imp ne_of_lt

theorem findIdx_eraseIdx_eq_erase {α : Type} [DecidableEq α] (xs : List α) (k : α) :
    (match xs.findIdx? (fun u => u == k) with
     | some pos => xs.eraseIdx pos
     | none => xs) = xs.erase k := by
  induction xs with
  | nil => rfl
  | cons c cs ih =>
    rw [List.findIdx?_cons]
    by_cases hc : (c == k) = true
    · rw [if_pos hc, List.erase_cons, if_pos hc]
      exact List.eraseIdx_cons_zero
    · rw [if_neg hc, List.findIdx?_succ, List.erase_cons, if_neg hc]
      cases h : cs.findIdx? (fun u => u == k) with
      | none =>
        rw [h] at ih
        exact congrArg (fun l => c :: l) ih
      | some pos =>
        rw [h] at ih
        have ih2 : cs.eraseIdx pos = cs.erase k := ih
        show (c :: cs).eraseIdx (pos + 1) = c :: cs.erase k
        rw [List.eraseIdx_cons_succ, ih2]

theorem findIdx_isSome_of_mem {α : Type} [DecidableEq α] {xs : List α} {k : α}
    (hmem : k ∈ xs) : (xs.findIdx? (fun u => u == k)).isSome = true := by
  rw [List.findIdx?_isSome]
  exact List.any_eq_true.2 ⟨k, hmem, beq_iff_eq.2 rfl⟩

theorem findIdx_eq_none_of_not_mem {α : Type} [DecidableEq α] {xs : List α} {k : α}
    (hmem : k ∉ xs) : xs.findIdx? (fun u => u == k) = none := by
  cases h : xs.findIdx? (fun u => u == k) with
  | none => rfl
  | some pos =>
    have hany : xs.any (fun u => u == k) = true := by
      rw [← List.findIdx?_isSome, h]
      rfl
    obtain ⟨x, hx, hbeq⟩ := List.any_eq_true.1 hany
    rw [beq_iff_eq] at hbeq
    exact absurd (hbeq ▸ hx) hmem

theorem remove_tag_found {m n : Nat} {s : TagSet m n} {t : List Char} {k : SmallString n}
    (hf : SmallString.from_str n t = Except.ok k) (hmem : k ∈ s.tags) :
    s.remove_tag t = (true, ⟨s.tags.erase k⟩) := by
  unfold TagSet.remove_tag
  rw [hf]
  show (match s.tags.findIdx? (fun u => u == k) with
        | some pos => (true, (⟨s.tags.eraseIdx pos⟩ : TagSet m n))
        | none => (false, s)) = (true, ⟨s.tags.erase k⟩)
  have hsome := findIdx_isSome_of_mem hmem
  cases h : s.tags.findIdx? (fun u => u == k) with
  | none =>
    rw [h] at hsome
    simp at hsome
  | some pos =>
    have herase := findIdx_eraseIdx_eq_erase s.tags k
    rw [h] at herase
    have herase2 : s.tags.eraseIdx pos = s.tags.erase k := herase
    show (true, (⟨s.tags.eraseIdx pos⟩ : TagSet m n)) = (true, ⟨s.tags.erase k⟩)
    rw [herase2]

theorem remove_tag_not_found {m n : Nat} {s : TagSet m n} {t : List Char}
    {k : SmallString n} (hf : SmallString.from_str n t = Except.ok k)
    (hmem : k ∉ s.tags) : s.remove_tag t = (false, s) := by
  unfold TagSet.remove_tag
  rw [hf]
  show (match s.tags.findIdx? (fun u => u == k) with
        | some pos => (true, (⟨s.tags.eraseIdx pos⟩ : TagSet m n))
        | none => (false, s)) = (false, s)
  rw [findIdx_eq_none_of_not_mem hmem]

theorem remove_tag_err {m n : Nat} {s : TagSet m n} {t : List Char}
    {e : SmallStringError} (hf : SmallString.from_str n t = Except.error e) :
    s.remove_tag t = (false, s) := by
  unfold TagSet.remove_tag
  rw [hf]

/-! ### `common_tags`: exact intersection, never hits the capacity error -/

theorem commonChecked_nil {m n : Nat} (b : TagSet m n) (acc : TagSet m n) :
    commonChecked b [] acc = Except.ok acc := rfl

theorem commonChecked_cons {m n : Nat} (b : TagSet m n) (u : SmallString n)
    (l : List (SmallString n)) (acc : TagSet m n) :
    commonChecked b (u :: l) acc =
      if b._has_tag u then
        match acc._add_tag_ordered u with
        | (some e, _) => Except.error e
        | (none, acc2) => commonChecked b l acc2
      else commonChecked b l acc := rfl

theorem common_loop {m n : Nat} (a b : TagSet m n) (hva : a.Valid) (hvb : b.Valid) :
    ∀ (l done : List (SmallString n)) (acc : TagSet m n),
      a.tags = done ++ l → acc.Valid →
      (∀ t, t ∈ acc.tags ↔ t ∈ done ∧ t ∈ b.tags) →
      ((List.foldl (fun result tag =>
          if b._has_tag tag then (result._add_tag_ordered tag).2 else result) acc l).Valid ∧
        (∀ t, t ∈ (List.foldl (fun result tag =>
          if b._has_tag tag then (result._add_tag_ordered tag).2 else result) acc l).tags ↔
            (t ∈ done ∨ t ∈ l) ∧ t ∈ b.tags) ∧
        commonChecked b l acc = Except.ok (List.foldl (fun result tag =>
          if b._has_tag tag then (result._add_tag_ordered tag).2 else result) acc l)) := by
  intro l
  induction l with
  | nil =>
    intro done acc ha hv hinv
    rw [List.foldl_nil]
    refine ⟨hv, ?_, rfl⟩
    intro t
    rw [hinv t]
    simp
  | cons u l2 ih =>
    intro done acc ha hv hinv
    rw [List.foldl_cons]
    have hnd : a.tags.Nodup := pairwise_lt_nodup hva.1
    have hundone : u ∉ done := by
      intro hu
      rw [ha] at hnd
      exact (List.nodup_append.1 hnd).2.2 hu (List.mem_cons_self u l2)
    have hua : u ∈ a.tags := by
      rw [ha]
      exact List.mem_append.2 (Or.inr (List.mem_cons_self u l2))
    have hunacc : u ∉ acc.tags := by
      intro hu
      exact hundone ((hinv u).1 hu).1
    by_cases hb : b._has_tag u = true
    · have hub : u ∈ b.tags := (_has_tag_iff hvb.1).1 hb
      rw [if_pos hb]
      have hcap : acc.tags.length < m := by
        have hndacc : (u :: acc.tags).Nodup :=
          List.nodup_cons.2 ⟨hunacc, pairwise_lt_nodup hv.1⟩
        have hsub : (u :: acc.tags) ⊆ a.tags := by
          intro x hx
          rcases List.mem_cons.1 hx with hxu | hxacc
          · rw [hxu]
            exact hua
          · rw [ha]
            exact List.mem_append.2 (Or.inl ((hinv x).1 hxacc).1)
        have hle := List.Subperm.length_le (List.Nodup.subperm hndacc hsub)
        have hlen := hva.2
        simp only [List.length_cons] at hle
        omega
      obtain ⟨j, hjle, heq, hval2, hlen2, hmem2, _, _⟩ :=
        _add_tag_ordered_insert_case hv hunacc hcap
      rw [heq]
      have ha2 : a.tags = (done ++ [u]) ++ l2 := by
        rw [ha, List.append_assoc, List.singleton_append]
      have hinv2 : ∀ t, t ∈ (⟨acc.tags.insertIdx j u⟩ : TagSet m n).tags ↔
          t ∈ done ++ [u] ∧ t ∈ b.tags := by
        intro t
        show t ∈ acc.tags.insertIdx j u ↔ _
        rw [hmem2 t, List.mem_append, List.mem_singleton]
        constructor
        · rintro (rfl | hacc)
          · exact ⟨Or.inr rfl, hub⟩
          · obtain ⟨h1, h2⟩ := (hinv t).1 hacc
            exact ⟨Or.inl h1, h2⟩
        · rintro ⟨h1 | h1, h2⟩
          · exact Or.inr ((hinv t).2 ⟨h1, h2⟩)
          · exact Or.inl h1
      obtain ⟨v1, v2, v3⟩ := ih (done ++ [u]) ⟨acc.tags.insertIdx j u⟩ ha2 hval2 hinv2
      refine ⟨v1, ?_, ?_⟩
      · intro t
        rw [v2 t, List.mem_append, List.mem_singleton, List.mem_cons]
        tauto
      · rw [commonChecked_cons, if_pos hb, heq]
        exact v3
    · rw [if_neg hb]
      have hub : u ∉ b.tags := fun hu => hb ((_has_tag_iff hvb.1).2 hu)
      have ha2 : a.tags = (done ++ [u]) ++ l2 := by
        rw [ha, List.append_assoc, List.singleton_append]
      have hinv2 : ∀ t, t ∈ acc.tags ↔ t ∈ done ++ [u] ∧ t ∈ b.tags := by
        intro t
        rw [hinv t, List.mem_append, List.mem_singleton]
        constructor
        · rintro ⟨h1, h2⟩
          exact ⟨Or.inl h1, h2⟩
        · rintro ⟨h1 | h1, h2⟩
          · exact ⟨h1, h2⟩
          · rw [h1] at h2
            exact absurd h2 hub
      obtain ⟨v1, v2, v3⟩ := ih (done ++ [u]) acc ha2 hv hinv2
      refine ⟨v1, ?_, ?_⟩
      · intro t
        rw [v2 t, List.mem_append, List.mem_singleton, List.mem_cons]
        tauto
      · rw [commonChecked_cons, if_neg hb]
        exact v3

theorem common_tags_spec {m n : Nat} (a b : TagSet m n)
    (hva : a.Valid) (hvb : b.Valid) :
    (a.common_tags b).Valid ∧
      (∀ t, t ∈ (a.common_tags b).tags ↔ t ∈ a.tags ∧ t ∈ b.tags) ∧
      a.common_tags_checked b = Except.ok (a.common_tags b) := by
  obtain ⟨v1, v2, v3⟩ := common_loop a b hva hvb a.tags [] TagSet.new rfl new_valid
    (by intro t; simp [TagSet.new])
  have hdef : a.common_tags b = List.foldl (fun result tag =>
      if b._has_tag tag then (result._add_tag_ordered tag).2 else result)
      TagSet.new a.tags := rfl
  rw [hdef]
  refine ⟨v1, ?_, v3⟩
  intro t
  rw [v2 t]
  simp

/-! ### Re-adding an already sorted, in-capacity list appends at the end -/

theorem addAll_of_sorted {m n : Nat} :
    ∀ (l done : List (SmallString n)),
      (done ++ l).Pairwise (· < ·) →
      (done ++ l).length ≤ m →
      (∀ t ∈ l, t.chars.length ≤ n) →
      TagSet.addAll (m := m) (⟨done⟩ : TagSet m n) (l.map SmallString.chars) =
        Except.ok ⟨done ++ l⟩ := by
  intro l
  induction l with
  | nil =>
    intro done hp hl hb
    rw [List.map_nil, addAll_nil, List.append_nil]
  | cons u l2 ih =>
    intro done hp hl hb
    rw [List.map_cons, addAll_cons]
    have hfs : SmallString.from_str n u.chars = Except.ok u := by
      unfold SmallString.from_str
      rw [if_neg (by
        have := hb u (List.mem_cons_self u l2)
        omega)]
    have hadd : (⟨done⟩ : TagSet m n).add_tag u.chars =
        (⟨done⟩ : TagSet m n)._add_tag_ordered u := by
      unfold TagSet.add_tag
      rw [hfs]
    rw [hadd]
    have hdone_pair : done.Pairwise (· < ·) := (List.pairwise_append.1 hp).1
    have hlt_all : ∀ d ∈ done, d < u := fun d hd =>
      (List.pairwise_append.1 hp).2.2 d hd u (List.mem_cons_self u l2)
    have hun : u ∉ done := fun hu => lt_irrefl u (hlt_all u hu)
    have hlen2 : done.length < m := by
      have h2 := hl
      simp [List.length_append] at h2
      omega
    obtain ⟨j, hjle, heq, _, _, _, _, hjgt⟩ :=
      _add_tag_ordered_insert_case (s := (⟨done⟩ : TagSet m n))
        ⟨hdone_pair, le_of_lt hlen2⟩ hun hlen2
    have hj : j = done.length := by
      rcases Nat.lt_or_ge j done.length with hjlt2 | hge
      · exfalso
        have h1 := hjgt j le_rfl hjlt2
        have hmemd : done.getD j default ∈ done := by
          rw [List.getD_eq_getElem _ _ hjlt2]
          exact List.getElem_mem hjlt2
        exact absurd (hlt_all _ hmemd) (lt_asymm h1)
      · exact le_antisymm hjle hge
    rw [heq]
    show TagSet.addAll (⟨done.insertIdx j u⟩ : TagSet m n) (l2.map SmallString.chars) =
      Except.ok ⟨done ++ u :: l2⟩
    rw [hj, List.insertIdx_length_self]
    have hres := ih (done ++ [u])
      (by rw [List.append_assoc, List.singleton_append]; exact hp)
      (by rw [List.append_assoc, List.singleton_append]; exact hl)
      (fun t ht => hb t (List.mem_cons_of_mem u ht))
    rw [List.append_assoc, List.singleton_append] at hres
    exact hres

/-! ### Serialization round trip -/

theorem joinCommas_cons_cons (t t2 : List Char) (ts : List (List Char)) :
    joinCommas (t :: t2 :: ts) = t ++ ',' :: joinCommas (t2 :: ts) := rfl

theorem splitCommas_joinCommas :
    ∀ (segs : List (List Char)), segs ≠ [] → (∀ s ∈ segs, ',' ∉ s) →
      splitCommas (joinCommas segs) = segs := by
  intro segs
  induction segs with
  | nil =>
    intro h _
    exact absurd rfl h
  | cons t ts ih =>
    intro _ hcf
    cases ts with
    | nil => exact splitCommas_no_comma t (hcf t (List.mem_cons_self t []))
    | cons t2 ts2 =>
      rw [joinCommas_cons_cons,
        splitCommas_append t _ (hcf t (List.mem_cons_self t (t2 :: ts2))),
        splitCommas_comma_cons,
        ih (by simp) (fun s hs => hcf s (List.mem_cons_of_mem t hs))]
      simp

theorem cleanSegments_of_good (segs : List (List Char))
    (hne : ∀ s ∈ segs, s ≠ [])
    (hcf : ∀ s ∈ segs, ',' ∉ s)
    (hws : ∀ s ∈ segs, ∀ c ∈ s, c.isWhitespace = false) :
    cleanSegments (joinCommas segs) = segs := by
  cases segs with
  | nil => rfl
  | cons t ts =>
    unfold cleanSegments
    rw [splitCommas_joinCommas (t :: ts) (by simp) hcf]
    have hmap : (t :: ts).map stripWs = t :: ts := by
      have hcong : ∀ s ∈ t :: ts, stripWs s = id s := by
        intro s hs
        show s.filter (fun c => !c.isWhitespace) = s
        rw [List.filter_eq_self]
        intro c hc
        rw [hws s hs c hc]
        rfl
      rw [List.map_congr_left hcong, List.map_id]
    rw [hmap, List.filter_eq_self]
    intro s hs
    cases hsnil : s with
    | nil => exact absurd hsnil (hne s hs)
    | cons c cs => rfl

theorem to_text_round_trip {m n : Nat} (x : TagSet m n) (hv : x.Valid) (hb : x.Bounded)
    (hgood : ∀ tg ∈ x.tags, tg.chars ≠ [] ∧
      ∀ c ∈ tg.chars, ¬c = ',' ∧ c.isWhitespace = false) :
    TagSet.from_str m n x.to_text = Except.ok x := by
  rw [from_str_eq_addAll]
  unfold TagSet.to_text
  rw [cleanSegments_of_good (x.tags.map SmallString.chars)
    (by
      intro s hs
      obtain ⟨tg, htg, rfl⟩ := List.mem_map.1 hs
      exact (hgood tg htg).1)
    (by
      intro s hs hc
      obtain ⟨tg, htg, rfl⟩ := List.mem_map.1 hs
      exact ((hgood tg htg).2 ',' hc).1 rfl)
    (by
      intro s hs c hc
      obtain ⟨tg, htg, rfl⟩ := List.mem_map.1 hs
      exact ((hgood tg htg).2 c hc).2)]
  have h := addAll_of_sorted x.tags [] (by simpa using hv.1) (by simpa using hv.2)
    (fun t ht => hb t ht)
  rw [List.nil_append] at h
  exact h

/-! ### `add_tag` / `has_tag` wrappers -/

theorem SmallString.lt_def {N : Nat} (a b : SmallString N) :
    a < b ↔ a.chars < b.chars :=
  Iff.rfl

theorem has_tag_ok {m n : Nat} {s : TagSet m n} {t : List Char} {k : SmallString n}
    (hf : SmallString.from_str n t = Except.ok k) : s.has_tag t = s._has_tag k := by
  unfold TagSet.has_tag
  rw [hf]

theorem has_tag_err {m n : Nat} {s : TagSet m n} {t : List Char} {e : SmallStringError}
    (hf : SmallString.from_str n t = Except.error e) : s.has_tag t = false := by
  unfold TagSet.has_tag
  rw [hf]

theorem has_tags_iff {m n : Nat} {s other : TagSet m n}
    (hs : s.tags.Pairwise (· < ·)) :
    s.has_tags other = true ↔ ∀ u ∈ other.tags, u ∈ s.tags := by
  unfold TagSet.has_tags
  rw [List.all_eq_true]
  constructor
  · intro h u hu
    exact (_has_tag_iff hs).1 (h u hu)
  · intro h u hu
    exact (_has_tag_iff hs).2 (h u hu)

theorem add_tag_mem {m n : Nat} {s : TagSet m n} {t : List Char} {k : SmallString n}
    (hs : s.tags.Pairwise (· < ·)) (hf : SmallString.from_str n t = Except.ok k)
    (hmem : k ∈ s.tags) : s.add_tag t = (none, s) := by
  unfold TagSet.add_tag
  rw [hf]
  show s._add_tag_ordered k = (none, s)
  exact _add_tag_ordered_mem_case hs hmem

theorem add_tag_twice {m n : Nat} (s : TagSet m n) (t : List Char) (hv : s.Valid) :
    ((s.add_tag t).2.add_tag t).2 = (s.add_tag t).2 := by
  cases hf : SmallString.from_str n t with
  | error e =>
    have h1 : s.add_tag t = (some (TagSetError.InvalidTag e), s) := by
      unfold TagSet.add_tag
      rw [hf]
    rw [h1]
    show (s.add_tag t).2 = s
    rw [h1]
  | ok k =>
    by_cases hmem : k ∈ s.tags
    · have h1 := add_tag_mem hv.1 hf hmem
      rw [h1]
      show (s.add_tag t).2 = s
      rw [h1]
    · by_cases hcap : m ≤ s.tags.length
      · have h1 : s.add_tag t = (some (TagSetError.TooManyTags (s.tags.length + 1) m), s) := by
          unfold TagSet.add_tag
          rw [hf]
          show s._add_tag_ordered k = _
          exact _add_tag_ordered_full_case hv.1 hmem hcap
        rw [h1]
        show (s.add_tag t).2 = s
        rw [h1]
      · obtain ⟨j, hjle, heq, hval2, _, hmem2, _, _⟩ :=
          _add_tag_ordered_insert_case hv hmem (by omega)
        have h1 : s.add_tag t = (none, ⟨s.tags.insertIdx j k⟩) := by
          unfold TagSet.add_tag
          rw [hf]
          show s._add_tag_ordered k = _
          exact heq
        rw [h1]
        show ((⟨s.tags.insertIdx j k⟩ : TagSet m n).add_tag t).2 = _
        rw [add_tag_mem hval2.1 hf ((hmem2 k).2 (Or.inl rfl))]

/-! ### The claims -/

/-- C1: every TagSet reachable from the empty set (or a successful parse) by
any sequence of `add_tag`, `remove_tag` and `from_str` calls keeps its live
elements in strictly ascending order under the element comparison (hence
duplicate-free), with `length ≤ MAX_TAGS`. -/
theorem claim1_reachable_invariant {m n : Nat} (s : TagSet m n)
    (h : TagSet.Reachable m n s) :
    s.tags.Pairwise (· < ·) ∧ s.tags.Nodup ∧ s.len ≤ m := by
  have hv : s.Valid := by
    induction h with
    | new => exact new_valid
    | parse t s hp => exact from_str_ok_valid hp
    | add s t _ ih => exact add_tag_valid ih
    | remove s t _ ih => exact remove_tag_valid ih
  exact ⟨hv.1, pairwise_lt_nodup hv.1, hv.2⟩

theorem claim1_witness :
    ((TagSet.new (m := 2) (n := 16)).add_tag exT1).2.tags.Pairwise (· < ·) ∧
      ((TagSet.new (m := 2) (n := 16)).add_tag exT1).2.tags.Nodup ∧
      ((TagSet.new (m := 2) (n := 16)).add_tag exT1).2.len ≤ 2 :=
  claim1_reachable_invariant _
    (TagSet.Reachable.add TagSet.new exT1 TagSet.Reachable.new)

/-- C2: on a set at full capacity (`len = MAX_TAGS`), adding a representable
tag that is not already an element fails with
`TooManyTags {actual := length + 1, max := MAX_TAGS}` and leaves the set
completely unchanged. -/
theorem claim2_full_add_fails {m n : Nat} (s : TagSet m n) (t : List Char)
    (k : SmallString n) (hv : s.Valid) (hlen : s.len = m)
    (hf : SmallString.from_str n t = Except.ok k) (hmem : k ∉ s.tags) :
    s.add_tag t = (some (TagSetError.TooManyTags (s.len + 1) m), s) := by
  unfold TagSet.add_tag
  rw [hf]
  show s._add_tag_ordered k = _
  exact _add_tag_ordered_full_case hv.1 hmem (le_of_eq hlen.symm)

theorem claim2_witness :
    exSet2.add_tag exT3 = (some (TagSetError.TooManyTags 3 2), exSet2) :=
  claim2_full_add_fails exSet2 exT3 ⟨exT3⟩ (by decide) (by decide) (by decide)
    (by decide)

/-- C3: adding a text whose tag is already an element — even at full
capacity — succeeds as a no-op; and `add_tag` twice in a row leaves the same
set as `add_tag` once. -/
theorem claim3_add_idempotent :
    (∀ (m n : Nat) (s : TagSet m n) (t : List Char) (k : SmallString n),
      s.Valid → SmallString.from_str n t = Except.ok k → k ∈ s.tags →
      s.add_tag t = (none, s)) ∧
    (∀ (m n : Nat) (s : TagSet m n) (t : List Char), s.Valid →
      ((s.add_tag t).2.add_tag t).2 = (s.add_tag t).2) :=
  ⟨fun _ _ _ _ _ hv hf hmem => add_tag_mem hv.1 hf hmem,
   fun _ _ s t hv => add_tag_twice s t hv⟩

theorem claim3_witness :
    exSet2.add_tag exT1 = (none, exSet2) ∧
      (((TagSet.new (m := 4) (n := 16)).add_tag exT1).2.add_tag exT1).2 =
        ((TagSet.new (m := 4) (n := 16)).add_tag exT1).2 :=
  ⟨claim3_add_idempotent.1 2 16 exSet2 exT1 sT1 (by decide) (by decide) (by decide),
   claim3_add_idempotent.2 4 16 TagSet.new exT1 (by decide)⟩

/-- C4: `from_str` splits on the comma delimiter, removes every whitespace
character anywhere in each segment, discards segments that become empty, and
adds each remaining segment in order; in particular the spec's whitespace
example yields exactly `{aaa, bbbb, ccc}` and inputs differing only in
segment order parse to the same ordered sequence. -/
theorem claim4_parse_segments :
    (∀ (m n : Nat) (s : List Char),
      TagSet.from_str m n s = TagSet.addAll TagSet.new (cleanSegments s)) ∧
    TagSet.from_str 4 16 exWs = Except.ok ⟨[sAaa, sBbbb, sCcc]⟩ ∧
    TagSet.from_str 4 16 exT321cs = TagSet.from_str 4 16 exT123cs ∧
    TagSet.from_str 4 16 exT123cs = Except.ok ⟨[sT1, sT2, sT3]⟩ :=
  ⟨from_str_eq_addAll, by decide, by decide, by decide⟩

/-- C5: `SmallString` construction succeeds with `length()` equal to the
character count whenever that count is within the bound, and fails with
`TooLong {actual, max}` (no truncation) exactly when it exceeds the bound;
in particular a three-character multi-byte text reports length 3, and an
11-character text fails against bound 5 with `TooLong {11, 5}`. -/
theorem claim5_boundedtext_construct :
    (∀ (N : Nat) (t : List Char), t.length ≤ N →
      SmallString.from_str N t = Except.ok ⟨t⟩ ∧
        (SmallString.mk (N := N) t).len = t.length) ∧
    (∀ (N : Nat) (t : List Char), N < t.length →
      SmallString.from_str N t = Except.error (SmallStringError.TooLong t.length N)) ∧
    ((SmallString.from_str 16 exUni = Except.ok ⟨exUni⟩ ∧
      (SmallString.mk (N := 16) exUni).len = 3)) ∧
    SmallString.from_str 5 exHW = Except.error (SmallStringError.TooLong 11 5) := by
  refine ⟨?_, ?_, by decide, by decide⟩
  · intro N t h
    constructor
    · unfold SmallString.from_str
      rw [if_neg (by omega)]
    · rfl
  · intro N t h
    unfold SmallString.from_str
    rw [if_pos h]

theorem claim5_witness :
    SmallString.from_str 16 exUni = Except.ok ⟨exUni⟩ ∧
      (SmallString.mk (N := 16) exUni).len = exUni.length :=
  claim5_boundedtext_construct.1 16 exUni (by decide)

/-- C6: for valid inputs of the same bounds, `common_tags` contains exactly
the elements present in both sets, is itself strictly sorted (hence
duplicate-free) and within capacity, and the internally discarded capacity
error can never occur (the checked variant returns `ok` of the same
result). -/
theorem claim6_common_tags (m n : Nat) (a b : TagSet m n)
    (hva : a.Valid) (hvb : b.Valid) :
    (a.common_tags b).tags.Pairwise (· < ·) ∧
      (∀ t, t ∈ (a.common_tags b).tags ↔ t ∈ a.tags ∧ t ∈ b.tags) ∧
      (a.common_tags b).len ≤ m ∧
      a.common_tags_checked b = Except.ok (a.common_tags b) := by
  obtain ⟨v1, v2, v3⟩ := common_tags_spec a b hva hvb
  exact ⟨v1.1, v2, v1.2, v3⟩

theorem claim6_witness :
    (exSet123.common_tags exSet234).tags.Pairwise (· < ·) ∧
      (∀ t, t ∈ (exSet123.common_tags exSet234).tags ↔
        t ∈ exSet123.tags ∧ t ∈ exSet234.tags) ∧
      (exSet123.common_tags exSet234).len ≤ 4 ∧
      exSet123.common_tags_checked exSet234 =
        Except.ok (exSet123.common_tags exSet234) :=
  claim6_common_tags 4 16 exSet123 exSet234 (by decide) (by decide)

/-- C7: `remove_tag` is total; removing a present tag erases exactly that
element (the rest shifting down, i.e. the list-erase of it), decreases the
length by one and makes a subsequent `has_tag` false; an absent or
unrepresentable probe returns `false` with the set unchanged. -/
theorem claim7_remove_total (m n : Nat) (s : TagSet m n) (t : List Char)
    (hv : s.Valid) :
    (∀ k, SmallString.from_str n t = Except.ok k → k ∈ s.tags →
      s.remove_tag t = (true, ⟨s.tags.erase k⟩) ∧
        (s.remove_tag t).2.len = s.len - 1 ∧
        (s.remove_tag t).2.has_tag t = false) ∧
    (∀ k, SmallString.from_str n t = Except.ok k → k ∉ s.tags →
      s.remove_tag t = (false, s)) ∧
    (∀ e, SmallString.from_str n t = Except.error e →
      s.remove_tag t = (false, s)) := by
  refine ⟨?_, fun k hf hmem => remove_tag_not_found hf hmem,
    fun e hf => remove_tag_err hf⟩
  intro k hf hmem
  have hrw := remove_tag_found hf hmem
  refine ⟨hrw, ?_, ?_⟩
  · rw [hrw]
    show (s.tags.erase k).length = s.tags.length - 1
    exact List.length_erase_of_mem hmem
  · rw [hrw]
    show (⟨s.tags.erase k⟩ : TagSet m n).has_tag t = false
    have hsorted : (s.tags.erase k).Pairwise (· < ·) :=
      List.Pairwise.sublist (List.erase_sublist k s.tags) hv.1
    have hnm : k ∉ s.tags.erase k := fun hk =>
      ((List.Nodup.mem_erase_iff (pairwise_lt_nodup hv.1)).1 hk).1 rfl
    rw [has_tag_ok (s := (⟨s.tags.erase k⟩ : TagSet m n)) hf]
    exact _has_tag_eq_false hsorted hnm

theorem claim7_witness :
    exSet123.remove_tag exT2 = (true, ⟨exSet123.tags.erase sT2⟩) ∧
      (exSet123.remove_tag exT2).2.len = exSet123.len - 1 ∧
      (exSet123.remove_tag exT2).2.has_tag exT2 = false :=
  (claim7_remove_total 4 16 exSet123 exT2 (by decide)).1 sT2 (by decide)
    (by decide)

/-- C8: the query operations never fail: `has_tag` returns `false` (not an
error) on an unrepresentable probe and otherwise decides membership exactly;
`has_tags` is the subset test, vacuously true on an empty argument. -/
theorem claim8_queries_total (m n : Nat) (s other : TagSet m n) (t : List Char)
    (hv : s.Valid) :
    (n < t.length → s.has_tag t = false) ∧
      (∀ k, SmallString.from_str n t = Except.ok k →
        (s.has_tag t = true ↔ k ∈ s.tags)) ∧
      (s.has_tags other = true ↔ ∀ u ∈ other.tags, u ∈ s.tags) ∧
      (other.tags = [] → s.has_tags other = true) := by
  refine ⟨?_, ?_, has_tags_iff hv.1, ?_⟩
  · intro h
    have hf : SmallString.from_str n t =
        Except.error (SmallStringError.TooLong t.length n) := by
      unfold SmallString.from_str
      rw [if_pos h]
    exact has_tag_err hf
  · intro k hf
    rw [has_tag_ok hf]
    exact _has_tag_iff hv.1
  · intro h
    refine (has_tags_iff hv.1).2 ?_
    intro u hu
    rw [h] at hu
    exact absurd hu (List.not_mem_nil u)

theorem claim8_witness :
    (16 < exHW.length → exSet123.has_tag exHW = false) ∧
      (∀ k, SmallString.from_str 16 exHW = Except.ok k →
        (exSet123.has_tag exHW = true ↔ k ∈ exSet123.tags)) ∧
      (exSet123.has_tags exSet23 = true ↔
        ∀ u ∈ exSet23.tags, u ∈ exSet123.tags) ∧
      (exSet23.tags = [] → exSet123.has_tags exSet23 = true) :=
  claim8_queries_total 4 16 exSet123 exSet23 exHW (by decide)

/-- C9 counterexample: the round-trip law fails as stated — `exBad` is a
valid (sorted, in-capacity) set containing the tag `" a"`, whose serialized
form parses back with the whitespace stripped, yielding a different set. -/
theorem claim9_counterexample :
    exBad.Valid ∧ TagSet.from_str 4 16 exBad.to_text ≠ Except.ok exBad := by
  constructor
  · decide
  · decide

/-- C9 (amended): `parse (to_text x) = x` holds for every valid, bounded set
all of whose element texts are nonempty and contain no comma and no
whitespace character — the restriction the counterexample forces, since
parsing strips whitespace, treats every comma as a delimiter, and drops
empty segments. -/
theorem claim9_round_trip (m n : Nat) (x : TagSet m n) (hv : x.Valid)
    (hb : x.Bounded)
    (hgood : ∀ tg ∈ x.tags, tg.chars ≠ [] ∧
      ∀ c ∈ tg.chars, ¬c = ',' ∧ c.isWhitespace = false) :
    TagSet.from_str m n x.to_text = Except.ok x :=
  to_text_round_trip x hv hb hgood

theorem claim9_witness :
    TagSet.from_str 4 16 exSet123.to_text = Except.ok exSet123 :=
  claim9_round_trip 4 16 exSet123 (by decide) (by decide) (by decide)

/-- C10: on every valid set, `remove_tag`'s linear position scan and
`has_tag`'s binary search agree: `remove_tag` returns `true` exactly when
`has_tag` holds of the pre-call set. -/
theorem claim10_remove_refines_has (m n : Nat) (s : TagSet m n) (t : List Char)
    (hv : s.Valid) : (s.remove_tag t).1 = s.has_tag t := by
  cases hf : SmallString.from_str n t with
  | error e =>
    rw [remove_tag_err hf, has_tag_err hf]
  | ok k =>
    by_cases hmem : k ∈ s.tags
    · rw [remove_tag_found hf hmem, has_tag_ok hf]
      exact ((_has_tag_iff hv.1).2 hmem).symm
    · rw [remove_tag_not_found hf hmem, has_tag_ok hf]
      exact (_has_tag_eq_false hv.1 hmem).symm

theorem claim10_witness :
    (exSet123.remove_tag exT2).1 = exSet123.has_tag exT2 :=
  claim10_remove_refines_has 4 16 exSet123 exT2 (by decide)
